import Mathlib

/-!
Verification of scripts/generate_translations.py.

The script transforms JSON-shaped data: a backend message catalog and a
pair of frontend localization trees. We embed JSON values as the
inductive type J below (objects are insertion-ordered association lists,
mirroring Python dict semantics), translate each Python function into a
Lean function of the same name, and prove the specified properties.
Fallible Python code (code that can raise) is embedded as Option-valued
functions, none meaning an exception propagates.
-/

set_option autoImplicit false

/-- Embedded JSON value as produced by json.load: a string, an object
(Python dict, modelled as an insertion-ordered association list), an
array, an integer number, a boolean, or null (Python None). Float
numbers do not occur in any claim and are not modelled. -/
inductive J where
  | str (s : String)
  | obj (fields : List (String × J))
  | arr (items : List J)
  | num (n : Int)
  | bool (b : Bool)
  | null

mutual

/-- Structural equality on embedded JSON values, modelling the Python
equality test used by the in operator on lists. The Python quirk that
True equals 1 is not modelled; no claim exercises it. -/
def beqJ : J → J → Bool
  | J.str a, J.str b => a == b
  | J.obj a, J.obj b => beqFields a b
  | J.arr a, J.arr b => beqItems a b
  | J.num a, J.num b => a == b
  | J.bool a, J.bool b => a == b
  | J.null, J.null => true
  | _, _ => false

/-- Pointwise structural equality on lists of values. -/
def beqItems : List J → List J → Bool
  | [], [] => true
  | a :: as, b :: bs => beqJ a b && beqItems as bs
  | _, _ => false

/-- Pointwise structural equality on dict entry lists. -/
def beqFields : List (String × J) → List (String × J) → Bool
  | [], [] => true
  | (k, v) :: as, (k2, v2) :: bs => k == k2 && beqJ v v2 && beqFields as bs
  | _, _ => false

end

/-- Lookup in a Python dict: returns the value of the first (in dict
order, the only) entry with the given key, as in data[part]. -/
def dictGet : List (String × J) → String → Option J
  | [], _ => none
  | (k, v) :: rest, key => if k = key then some v else dictGet rest key

/-- Assignment data[key] = v on a Python dict: replaces the value of an
existing entry in place (keeping its position), or appends a new entry
at the end, matching dict insertion-order semantics. -/
def dictSet : List (String × J) → String → J → List (String × J)
  | [], key, v => [(key, v)]
  | (k, w) :: rest, key, v =>
    if k = key then (k, v) :: rest else (k, w) :: dictSet rest key v

/-- Python key.split with separator a single dot, written as a
structurally recursive scan over the characters. The result is always
nonempty; the empty string splits to a singleton list holding the empty
string, exactly as in Python. -/
def splitGo : List Char → List Char → List String
  | [], acc => [String.mk acc.reverse]
  | c :: cs, acc =>
    if c = Char.ofNat 46 then String.mk acc.reverse :: splitGo cs []
    else splitGo cs (c :: acc)

/-- key.split on the dot separator, as used by get_nested/set_nested. -/
def splitSegs (key : String) : List String := splitGo key.toList []

/-- Descent loop of get_nested: for part in parts, descend when the
current node is a dict containing part, else return None. The final
node reached is returned as is (it may itself be null, which Python
cannot tell apart from the None sentinel; the conflation happens at the
call site in process_frontend and is modelled there). -/
def goGet : J → List String → Option J
  | d, [] => some d
  | J.obj m, p :: ps =>
    match dictGet m p with
    | some v => goGet v ps
    | none => none
  | J.str _, _ :: _ => none
  | J.arr _, _ :: _ => none
  | J.num _, _ :: _ => none
  | J.bool _, _ :: _ => none
  | J.null, _ :: _ => none

/-- get_nested(data, key): split key on dots and descend, returning the
value found, or none the first time a segment is missing or the current
node is not a dict. The Python function never raises. -/
def get_nested (data : J) (key : String) : Option J := goGet data (splitSegs key)

/-- Child dict the set_nested loop descends into after the check
"if part not in data or not isinstance(data[part], dict): data[part] = el"
with el a fresh empty dict: the existing dict if one is there, otherwise
the fresh empty dict that replaces whatever was there. -/
def childOf : Option J → List (String × J)
  | some (J.obj c) => c
  | _ => []

/-- Body of set_nested on a dict, recursing over the split segments.
For all but the last segment it forces the entry to a dict and descends;
at the last segment it writes only if the key is not already present
(the write-once guard "if last_key not in data"). -/
def setGo (m : List (String × J)) : List String → J → List (String × J)
  | [], _ => m
  | [last], v => if (dictGet m last).isSome then m else m ++ [(last, v)]
  | p :: q :: rest, v =>
    dictSet m p (J.obj (setGo (childOf (dictGet m p)) (q :: rest) v))

/-- set_nested applied to a dict tree, which is the shape every caller
in the script passes; on a dict it never raises. -/
def setObj (m : List (String × J)) (key : String) (v : J) : List (String × J) :=
  setGo m (splitSegs key) v

/-- Bool test for list membership of a pattern inside a text, used to
model the Python substring test pat in s on strings. -/
def subSeq (pat text : List Char) : Bool :=
  text.tails.any (fun t => pat.isPrefixOf t)

/-- set_nested(data, key, value) on an arbitrary value for data, with
none modelling a raised exception. On a dict the Python loop and final
guard never raise. On a string, the loop body raises for a multi-segment
key; for a single-segment key the guard last_key not in data is a
substring test, so a present substring means no write and no raise,
while an absent one reaches the item assignment, which raises TypeError.
On a list, in is membership; a present member means no write, otherwise
the item assignment with a string index raises. Other values raise
TypeError at the in test itself. -/
def set_nested (data : J) (key : String) (value : J) : Option J :=
  match data with
  | J.obj m => some (J.obj (setGo m (splitSegs key) value))
  | J.str s =>
    match splitSegs key with
    | [last] => if subSeq last.toList s.toList then some (J.str s) else none
    | _ => none
  | J.arr l =>
    match splitSegs key with
    | [last] => if l.any (fun x => beqJ x (J.str last)) then some (J.arr l) else none
    | _ => none
  | _ => none

/-- Single-quote character, used by the Python repr of strings. -/
def squo : String := String.singleton (Char.ofNat 39)

mutual

/-- Python repr of an embedded JSON value, used by str on containers.
String escaping inside repr is not modelled (no claim evaluates the
repr of a string containing quotes). -/
def pyRepr : J → String
  | J.null => "None"
  | J.bool true => "True"
  | J.bool false => "False"
  | J.num n => toString n
  | J.str s => squo ++ s ++ squo
  | J.arr l => "[" ++ pyReprItems l ++ "]"
  | J.obj m => "\x7b" ++ pyReprFields m ++ "\x7d"

/-- Comma-separated reprs of list items. -/
def pyReprItems : List J → String
  | [] => ""
  | [x] => pyRepr x
  | x :: xs => pyRepr x ++ ", " ++ pyReprItems xs

/-- Comma-separated key: value reprs of dict entries. -/
def pyReprFields : List (String × J) → String
  | [] => ""
  | [(k, v)] => squo ++ k ++ squo ++ ": " ++ pyRepr v
  | (k, v) :: rest => squo ++ k ++ squo ++ ": " ++ pyRepr v ++ ", " ++ pyReprFields rest

end

/-- Python str of a value, as applied by the f-string
"[DE] " followed by msg["message"]: a string renders as itself, other
values through their repr (with True, False, None spelled the Python
way and integers in decimal). -/
def pyStr : J → String
  | J.str s => s
  | v => pyRepr v

/-- Loop body of process_backend: msg["translation"] is assigned
"[DE] " followed by str of msg["message"]. A message that is not a dict
raises at the indexing, and a dict without the message key raises
KeyError; both are none. -/
def processMsg (msg : J) : Option J :=
  match msg with
  | J.obj f =>
    match dictGet f "message" with
    | some v => some (J.obj (dictSet f "translation" (J.str ("[DE] " ++ pyStr v))))
    | none => none
  | _ => none

/-- The for-loop of process_backend over the messages list: processes
the messages in order, the first raising message aborting the run. -/
def mapMsgs : List J → Option (List J)
  | [] => some []
  | x :: xs =>
    match processMsg x with
    | none => none
    | some y =>
      match mapMsgs xs with
      | none => none
      | some ys => some (y :: ys)

/-- Pure core of process_backend on the parsed catalog value: sets
data["language"] to "de", then iterates data["messages"] rewriting each
translation. A non-dict top level raises at the language assignment; a
missing messages key raises KeyError. Iterating a nonempty string
yields one-character strings and iterating a nonempty dict yields its
keys, and either raises inside the loop body; the empty string and the
empty dict iterate zero times and succeed. Other non-list values are
not iterable and raise. -/
def processBackendData (data : J) : Option J :=
  match data with
  | J.obj m =>
    match dictGet (dictSet m "language" (J.str "de")) "messages" with
    | some (J.arr msgs) =>
      match mapMsgs msgs with
      | none => none
      | some msgs2 =>
        some (J.obj (dictSet (dictSet m "language" (J.str "de")) "messages" (J.arr msgs2)))
    | some (J.str s) => if s = "" then some (J.obj (dictSet m "language" (J.str "de"))) else none
    | some (J.obj []) => some (J.obj (dictSet m "language" (J.str "de")))
    | some (J.obj (_ :: _)) => none
    | some _ => none
    | none => none
  | _ => none

/-- State of an input file: present and parsing to a value, or present
but failing json.load. -/
inductive FileContent where
  | parsed (v : J)
  | malformed

/-- Observable outcome of process_backend: whether an exception
propagated out of it, and the value serialized to the output file when
one was written. -/
structure BackendResult where
  raised : Bool
  output : Option J

/-- process_backend over the state of the input catalog file: a missing
file is a logged skip, a file that fails json.load raises before any
write, and otherwise the pure transformation decides between raising
(still before the write, which is last in the function) and writing the
transformed catalog. -/
def process_backend : Option FileContent → BackendResult
  | none => ⟨false, none⟩
  | some FileContent.malformed => ⟨true, none⟩
  | some (FileContent.parsed v) =>
    match processBackendData v with
    | none => ⟨true, none⟩
    | some out => ⟨false, some out⟩

/-- Python str.replace of underscores by spaces, as applied to the last
key segment; the pattern is a single character, so it is a character
map. -/
def underscoresToSpaces (s : String) : String :=
  String.mk (s.toList.map (fun c => if c = Char.ofNat 95 then Char.ofNat 32 else c))

/-- One step of Python str.title: an alphabetic character is uppercased
when the previous character was not alphabetic and lowercased
otherwise; other characters pass through and reset the word. Restricted
to ASCII letters, which is all the script feeds it. -/
def titleGo : List Char → Bool → List Char
  | [], _ => []
  | c :: cs, prevCased =>
    if c.isAlpha then (if prevCased then c.toLower else c.toUpper) :: titleGo cs true
    else c :: titleGo cs false

/-- Python str.title. -/
def pyTitle (s : String) : String := String.mk (titleGo s.toList false)

/-- Display label for a key: key.split(".")[-1].replace("_", " ").title().
The split list is never empty, so the default of getLastD is
unreachable. -/
def displayOf (key : String) : String :=
  pyTitle (underscoresToSpaces ((splitSegs key).getLastD ""))

/-- The test "existing_val is None" in process_frontend: true both when
get_nested hit a missing segment and when the value stored at the path
is JSON null, which json.load turns into Python None. -/
def pyFound : Option J → Option J
  | none => none
  | some J.null => none
  | some v => some v

/-- Tail of the key loop of process_frontend: when the effective source
value is a string, merge its tagged copy into the target tree with
set_nested; other values skip the target write. Returns the new pair of
trees, or none when the set_nested raises. -/
def deWrite (en de : J) (key : String) (enVal : J) : Option (J × J) :=
  match enVal with
  | J.str s =>
    match set_nested de key (J.str ("[DE] " ++ s)) with
    | none => none
    | some de2 => some (en, de2)
  | _ => some (en, de)

/-- One iteration of the key loop of process_frontend: look the key up
in the source tree; when the result is Python None, merge the display
label into the source tree (which can raise when the source tree is
not a dict) and use the label as the effective value; then run the
target-tree step. -/
def processKey (st : J × J) (key : String) : Option (J × J) :=
  match pyFound (get_nested st.1 key) with
  | none =>
    match set_nested st.1 key (J.str (displayOf key)) with
    | none => none
    | some en2 => deWrite en2 st.2 key (J.str (displayOf key))
  | some v => deWrite st.1 st.2 key v

/-- The key loop of process_frontend, folding processKey over the key
list from the initial pair of trees; none when some iteration raised. -/
def processKeys (en de : J) (keys : List String) : Option (J × J) :=
  List.foldlM processKey (en, de) keys

/-- Loading of the source tree in process_frontend: a missing file and
a file that fails json.load both give the empty dict (the except branch
swallows the parse error); a parsed file gives its value, whatever its
shape. -/
def loadEn : Option FileContent → J
  | none => J.obj []
  | some FileContent.malformed => J.obj []
  | some (FileContent.parsed v) => v

/-- Observable outcome of process_frontend: whether an exception
propagated, and the values serialized to the two output files when the
run got to the writes. -/
structure FrontendResult where
  raised : Bool
  enOut : Option J
  deOut : Option J

/-- process_frontend over the state of its input files. The key-list
file is modelled directly as the list of its stripped nonblank lines;
a missing key-list file is a logged skip. The source tree is loaded
with loadEn, the target tree starts empty, the key loop runs, and both
trees are written only after the whole loop succeeded. -/
def process_frontend : Option (List String) → Option FileContent → FrontendResult
  | none, _ => ⟨false, none, none⟩
  | some keys, enFile =>
    match processKeys (loadEn enFile) (J.obj []) keys with
    | none => ⟨true, none, none⟩
    | some (en, de) => ⟨false, some en, some de⟩

theorem dictGet_dictSet_self (m : List (String × J)) (k : String) (v : J) :
    dictGet (dictSet m k v) k = some v := by
  induction m with
  | nil => simp [dictGet, dictSet]
  | cons hd tl ih =>
    obtain ⟨k2, w⟩ := hd
    by_cases h : k2 = k <;> simp [dictGet, dictSet, h, ih]

theorem dictGet_dictSet_ne (m : List (String × J)) (k k2 : String) (v : J) (h : k2 ≠ k) :
    dictGet (dictSet m k v) k2 = dictGet m k2 := by
  have hne : ¬ k = k2 := fun hh => h hh.symm
  induction m with
  | nil => simp [dictGet, dictSet, hne]
  | cons hd tl ih =>
    obtain ⟨k3, w⟩ := hd
    by_cases h3 : k3 = k
    · simp [dictGet, dictSet, h3, hne]
    · by_cases h2 : k3 = k2 <;> simp [dictGet, dictSet, h3, h2, h, ih]

theorem dictSet_of_dictGet_some (m : List (String × J)) (k : String) (v : J)
    (h : dictGet m k = some v) : dictSet m k v = m := by
  induction m with
  | nil => simp [dictGet] at h
  | cons hd tl ih =>
    obtain ⟨k2, w⟩ := hd
    by_cases h2 : k2 = k
    · subst h2
      simp [dictGet] at h
      simp [dictSet, h]
    · simp [dictGet, h2] at h
      simp [dictSet, h2, ih h]

theorem dictGet_append_some (m l : List (String × J)) (k : String) (v : J)
    (h : dictGet m k = some v) : dictGet (m ++ l) k = some v := by
  induction m with
  | nil => simp [dictGet] at h
  | cons hd tl ih =>
    obtain ⟨k2, w⟩ := hd
    by_cases h2 : k2 = k <;> simp_all [dictGet]

theorem dictGet_append_none (m l : List (String × J)) (k : String)
    (h : dictGet m k = none) : dictGet (m ++ l) k = dictGet l k := by
  induction m with
  | nil => simp
  | cons hd tl ih =>
    obtain ⟨k2, w⟩ := hd
    by_cases h2 : k2 = k <;> simp_all [dictGet]

theorem goGet_cons_ne_obj (d : J) (x : String) (xs : List String)
    (h : ∀ m, d ≠ J.obj m) : goGet d (x :: xs) = none := by
  cases d <;> simp [goGet]
  rename_i m
  exact absurd rfl (h m)

/-- When a path fully resolves in a dict tree, set_nested walks it
without touching anything: every intermediate node is already a dict
holding the next segment, and the final write is skipped by the
write-once guard. -/
theorem setGo_unchanged : ∀ (parts : List String) (m : List (String × J)) (w v : J),
    goGet (J.obj m) parts = some w → setGo m parts v = m := by
  intro parts
  induction parts with
  | nil => intro m w v _; rfl
  | cons p rest ih =>
    intro m w v h
    cases hdg : dictGet m p with
    | none => simp [goGet, hdg] at h
    | some u =>
      cases rest with
      | nil =>
        simp [setGo, hdg]
      | cons q rest2 =>
        simp only [goGet, hdg] at h
        cases u with
        | obj c =>
          simp only [setGo, hdg, childOf]
          rw [ih c w v h]
          exact dictSet_of_dictGet_some m p (J.obj c) hdg
        | str s => simp [goGet] at h
        | arr l => simp [goGet] at h
        | num n => simp [goGet] at h
        | bool b => simp [goGet] at h
        | null => simp [goGet] at h

/-- When a path does not resolve in a dict tree, set_nested creates the
missing intermediate dicts and writes the value, after which the path
resolves to exactly the written value. -/
theorem setGo_write : ∀ (parts : List String) (m : List (String × J)) (v : J),
    parts ≠ [] → goGet (J.obj m) parts = none →
    goGet (J.obj (setGo m parts v)) parts = some v := by
  intro parts
  induction parts with
  | nil => intro m v hne _; exact absurd rfl hne
  | cons p rest ih =>
    intro m v _ h
    cases rest with
    | nil =>
      cases hdg : dictGet m p with
      | some u => simp [goGet, hdg] at h
      | none =>
        have happ : dictGet (m ++ [(p, v)]) p = some v := by
          rw [dictGet_append_none m [(p, v)] p hdg]
          simp [dictGet]
        simp [setGo, hdg, goGet, happ]
    | cons q rest2 =>
      have hchild : goGet (J.obj (childOf (dictGet m p))) (q :: rest2) = none := by
        cases hdg : dictGet m p with
        | none => simp [childOf, goGet, dictGet]
        | some u =>
          cases u with
          | obj c =>
            simp only [goGet, hdg] at h
            simpa [childOf] using h
          | str s => simp [childOf, goGet, dictGet]
          | arr l => simp [childOf, goGet, dictGet]
          | num n => simp [childOf, goGet, dictGet]
          | bool b => simp [childOf, goGet, dictGet]
          | null => simp [childOf, goGet, dictGet]
      have hrec := ih (childOf (dictGet m p)) v (by simp) hchild
      simp only [setGo, goGet, dictGet_dictSet_self]
      exact hrec

/-- set_nested never breaks an unrelated resolvable path: a path that
resolved before a set still resolves after it (possibly to a different
value, when the set replaced a non-dict intermediate on it). -/
theorem setGo_mono : ∀ (parts kp : List String) (m : List (String × J)) (v : J),
    goGet (J.obj m) kp ≠ none → goGet (J.obj (setGo m parts v)) kp ≠ none := by
  intro parts
  induction parts with
  | nil => intro kp m v h; exact h
  | cons p rest ih =>
    intro kp m v h
    cases kp with
    | nil => simp [goGet]
    | cons k1 krest =>
      cases hdg : dictGet m k1 with
      | none => simp [goGet, hdg] at h
      | some u =>
        simp only [goGet, hdg] at h
        cases rest with
        | nil =>
          cases hpre : dictGet m p with
          | some w => simpa [setGo, hpre, goGet, hdg] using h
          | none =>
            have hk : dictGet (m ++ [(p, v)]) k1 = some u := dictGet_append_some m _ k1 u hdg
            simpa [setGo, hpre, goGet, hk] using h
        | cons q rest2 =>
          by_cases hk1 : k1 = p
          · subst hk1
            simp only [setGo]
            have hself := dictGet_dictSet_self m k1 (J.obj (setGo (childOf (dictGet m k1)) (q :: rest2) v))
            simp only [goGet, hself]
            cases krest with
            | nil => simp [goGet]
            | cons x xs =>
              cases u with
              | obj c =>
                rw [hdg]
                simp only [childOf]
                exact ih (x :: xs) c v h
              | str s => simp [goGet] at h
              | arr l => simp [goGet] at h
              | num n => simp [goGet] at h
              | bool b => simp [goGet] at h
              | null => simp [goGet] at h
          · have hne : dictGet (dictSet m p (J.obj (setGo (childOf (dictGet m p)) (q :: rest2) v))) k1 = some u := by
              rw [dictGet_dictSet_ne m p k1 _ hk1, hdg]
            simp only [setGo, goGet, hne]
            exact h

theorem splitGo_ne_nil : ∀ (cs acc : List Char), splitGo cs acc ≠ [] := by
  intro cs
  induction cs with
  | nil => intro acc; simp [splitGo]
  | cons c cs2 ih =>
    intro acc
    by_cases h : c = Char.ofNat 46 <;> simp [splitGo, h, ih]

theorem splitSegs_ne_nil (key : String) : splitSegs key ≠ [] := splitGo_ne_nil key.toList []

/-- Path resolution relation, the specification shape of get_nested:
descending one segment per level through dict nodes that hold the
segment reaches the result. -/
inductive Descends : J → List String → J → Prop
  | found (d : J) : Descends d [] d
  | into (m : List (String × J)) (p : String) (ps : List String) (v w : J) :
      dictGet m p = some v → Descends v ps w → Descends (J.obj m) (p :: ps) w

theorem goGet_iff_descends : ∀ (parts : List String) (d v : J),
    goGet d parts = some v ↔ Descends d parts v := by
  intro parts
  induction parts with
  | nil =>
    intro d v
    constructor
    · intro h
      simp only [goGet, Option.some.injEq] at h
      subst h
      exact Descends.found d
    · intro h
      cases h
      cases d <;> rfl
  | cons p ps ih =>
    intro d v
    constructor
    · intro h
      cases d with
      | obj m =>
        cases hdg : dictGet m p with
        | none => simp [goGet, hdg] at h
        | some u =>
          simp only [goGet, hdg] at h
          exact Descends.into m p ps u v hdg ((ih u v).mp h)
      | str s => simp [goGet] at h
      | arr l => simp [goGet] at h
      | num n => simp [goGet] at h
      | bool b => simp [goGet] at h
      | null => simp [goGet] at h
    · intro h
      cases h with
      | into m p2 ps2 u w hdg hdesc =>
        simp only [goGet, hdg]
        exact (ih u v).mpr hdesc

theorem set_nested_obj (m : List (String × J)) (key : String) (v : J) :
    set_nested (J.obj m) key v = some (J.obj (setObj m key v)) := rfl

/-- One key-loop iteration on a pair of dict trees: it cannot raise, it
keeps both trees dicts, it makes its own key resolve in the source
tree, and it never makes a previously resolvable source path
unresolvable. -/
theorem processKey_obj (m d : List (String × J)) (key : String) :
    ∃ m2 d2, processKey (J.obj m, J.obj d) key = some (J.obj m2, J.obj d2) ∧
      get_nested (J.obj m2) key ≠ none ∧
      (∀ kp, goGet (J.obj m) kp ≠ none → goGet (J.obj m2) kp ≠ none) := by
  cases hg : get_nested (J.obj m) key with
  | none =>
    refine ⟨setObj m key (J.str (displayOf key)), setObj d key (J.str ("[DE] " ++ displayOf key)), ?_, ?_, ?_⟩
    · simp [processKey, hg, pyFound, set_nested_obj, deWrite]
    · rw [get_nested] at hg ⊢
      rw [setObj, setGo_write (splitSegs key) m _ (splitSegs_ne_nil key) hg]
      simp
    · intro kp hkp
      exact setGo_mono (splitSegs key) kp m (J.str (displayOf key)) hkp
  | some u =>
    have hstable : setObj m key (J.str (displayOf key)) = m :=
      setGo_unchanged (splitSegs key) m u (J.str (displayOf key)) hg
    cases u with
    | null =>
      refine ⟨m, setObj d key (J.str ("[DE] " ++ displayOf key)), ?_, ?_, fun kp h => h⟩
      · simp [processKey, hg, pyFound, set_nested_obj, deWrite, hstable]
      · simp [hg]
    | str s =>
      refine ⟨m, setObj d key (J.str ("[DE] " ++ s)), ?_, ?_, fun kp h => h⟩
      · simp [processKey, hg, pyFound, deWrite, set_nested_obj]
      · simp [hg]
    | obj c =>
      exact ⟨m, d, by simp [processKey, hg, pyFound, deWrite], by simp [hg], fun kp h => h⟩
    | arr l =>
      exact ⟨m, d, by simp [processKey, hg, pyFound, deWrite], by simp [hg], fun kp h => h⟩
    | num n =>
      exact ⟨m, d, by simp [processKey, hg, pyFound, deWrite], by simp [hg], fun kp h => h⟩
    | bool b =>
      exact ⟨m, d, by simp [processKey, hg, pyFound, deWrite], by simp [hg], fun kp h => h⟩

/-- A key-loop iteration whose key already resolves in the source tree
leaves the source tree exactly unchanged. -/
theorem processKey_stable (m d : List (String × J)) (key : String)
    (h : get_nested (J.obj m) key ≠ none) :
    ∃ d2, processKey (J.obj m, J.obj d) key = some (J.obj m, J.obj d2) := by
  cases hg : get_nested (J.obj m) key with
  | none => exact absurd hg h
  | some u =>
    have hstable : setObj m key (J.str (displayOf key)) = m :=
      setGo_unchanged (splitSegs key) m u (J.str (displayOf key)) hg
    cases u with
    | null =>
      exact ⟨setObj d key (J.str ("[DE] " ++ displayOf key)),
        by simp [processKey, hg, pyFound, set_nested_obj, deWrite, hstable]⟩
    | str s =>
      exact ⟨setObj d key (J.str ("[DE] " ++ s)),
        by simp [processKey, hg, pyFound, deWrite, set_nested_obj]⟩
    | obj c => exact ⟨d, by simp [processKey, hg, pyFound, deWrite]⟩
    | arr l => exact ⟨d, by simp [processKey, hg, pyFound, deWrite]⟩
    | num n => exact ⟨d, by simp [processKey, hg, pyFound, deWrite]⟩
    | bool b => exact ⟨d, by simp [processKey, hg, pyFound, deWrite]⟩

/-- The whole key loop on dict trees: it completes, returns dict trees,
every processed key resolves in the final source tree, and previously
resolvable source paths stay resolvable. -/
theorem processKeys_obj : ∀ (keys : List String) (m d : List (String × J)),
    ∃ m2 d2, processKeys (J.obj m) (J.obj d) keys = some (J.obj m2, J.obj d2) ∧
      (∀ k ∈ keys, get_nested (J.obj m2) k ≠ none) ∧
      (∀ kp, goGet (J.obj m) kp ≠ none → goGet (J.obj m2) kp ≠ none) := by
  intro keys
  induction keys with
  | nil => exact fun m d => ⟨m, d, rfl, by simp, fun kp h => h⟩
  | cons k ks ih =>
    intro m d
    obtain ⟨m1, d1, hstep, hres, hmono⟩ := processKey_obj m d k
    obtain ⟨m2, d2, hrest, hres2, hmono2⟩ := ih m1 d1
    refine ⟨m2, d2, ?_, ?_, fun kp h => hmono2 kp (hmono kp h)⟩
    · rw [processKeys, List.foldlM_cons, hstep]
      exact hrest
    · intro k2 hk2
      rcases List.mem_cons.mp hk2 with h | h
      · subst h
        exact hmono2 (splitSegs k2) hres
      · exact hres2 k2 h

/-- A second pass of the key loop over keys that all already resolve
never changes the source tree. -/
theorem processKeys_stable : ∀ (keys : List String) (m d : List (String × J)),
    (∀ k ∈ keys, get_nested (J.obj m) k ≠ none) →
    ∃ d2, processKeys (J.obj m) (J.obj d) keys = some (J.obj m, J.obj d2) := by
  intro keys
  induction keys with
  | nil => exact fun m d _ => ⟨d, rfl⟩
  | cons k ks ih =>
    intro m d hres
    obtain ⟨d1, hstep⟩ := processKey_stable m d k (hres k (by simp))
    obtain ⟨d2, hrest⟩ := ih m d1 (fun k2 hk2 => hres k2 (List.mem_cons_of_mem k hk2))
    refine ⟨d2, ?_⟩
    rw [processKeys, List.foldlM_cons, hstep]
    exact hrest

/-- A message record the backend loop raises on: not a dict, or a dict
without the message key. -/
def badMsg : J → Bool
  | J.obj f => (dictGet f "message").isNone
  | _ => true

theorem processMsg_none_of_badMsg (x : J) (h : badMsg x = true) : processMsg x = none := by
  cases x with
  | obj f =>
    simp only [badMsg, Option.isNone_iff_eq_none] at h
    simp [processMsg, h]
  | str s => rfl
  | arr l => rfl
  | num n => rfl
  | bool b => rfl
  | null => rfl

theorem mapMsgs_none : ∀ (msgs : List J) (x : J), x ∈ msgs → badMsg x = true →
    mapMsgs msgs = none := by
  intro msgs
  induction msgs with
  | nil => intro x hx; simp at hx
  | cons y ys ih =>
    intro x hx hbad
    rcases List.mem_cons.mp hx with h | h
    · subst h
      simp [mapMsgs, processMsg_none_of_badMsg x hbad]
    · cases hy : processMsg y with
      | none => simp [mapMsgs, hy]
      | some z => simp [mapMsgs, hy, ih x h hbad]

/-- The backend loop on a list of well-formed message records succeeds
and rewrites each record by storing the tagged translation, touching
nothing else in the record. -/
theorem mapMsgs_sound : ∀ (msgs : List J),
    (∀ x ∈ msgs, ∃ f, x = J.obj f ∧ (dictGet f "message").isSome) →
    ∃ msgs2, mapMsgs msgs = some msgs2 ∧
      List.Forall₂ (fun x y => ∃ f v, x = J.obj f ∧ dictGet f "message" = some v ∧
        y = J.obj (dictSet f "translation" (J.str ("[DE] " ++ pyStr v)))) msgs msgs2 := by
  intro msgs
  induction msgs with
  | nil => exact fun _ => ⟨[], rfl, List.Forall₂.nil⟩
  | cons x xs ih =>
    intro hv
    obtain ⟨f, hx, hmsg⟩ := hv x (by simp)
    obtain ⟨v, hv2⟩ := Option.isSome_iff_exists.mp hmsg
    obtain ⟨ys, hys, hrel⟩ := ih (fun z hz => hv z (List.mem_cons_of_mem x hz))
    refine ⟨J.obj (dictSet f "translation" (J.str ("[DE] " ++ pyStr v))) :: ys, ?_, ?_⟩
    · subst hx
      simp [mapMsgs, processMsg, hv2, hys]
    · exact List.Forall₂.cons ⟨f, v, hx, hv2, rfl⟩ hrel

/-- C8: get_nested splits the path on dots and descends one segment at
a time: it returns some value exactly when the segments resolve through
dict nodes to that value, and none the first time a segment is missing
or the current node is not a dict. The embedding is a total function,
so the Python function never raises for a missing path. -/
theorem get_nested_descends (data : J) (key : String) (v : J) :
    get_nested data key = some v ↔ Descends data (splitSegs key) v :=
  goGet_iff_descends (splitSegs key) data v

/-- C2 counterexample: the claim that existing values are never
overwritten, universally, including when a non-mapping value sits at an
intermediate position of the path, fails: on the tree holding the
string x at key a, set_nested with path a.b overwrites that existing
value by a fresh mapping. -/
theorem set_nested_write_once_counterexample :
    get_nested (J.obj [("a", J.str "x")]) "a" = some (J.str "x") ∧
    set_nested (J.obj [("a", J.str "x")]) "a.b" (J.str "v") =
      some (J.obj [("a", J.obj [("b", J.str "v")])]) ∧
    get_nested (J.obj [("a", J.obj [("b", J.str "v")])]) "a" ≠ some (J.str "x") := by
  refine ⟨rfl, rfl, ?_⟩
  intro hcontra
  have h2 : some (J.obj [("b", J.str "v")]) = some (J.str "x") := hcontra
  injection h2 with h3
  exact J.noConfusion h3

/-- C2 amended: the write-once policy holds for the value addressed by
the full path: whenever a value exists at the path, set_nested never
overwrites it, and the final write happens only when no value existed
there; a non-mapping value at an intermediate position, however, is
overwritten by a fresh empty mapping. -/
theorem set_nested_write_once_amended (m : List (String × J)) (key : String) (v w : J)
    (h : get_nested (J.obj m) key = some w) :
    get_nested (J.obj (setObj m key v)) key = some w := by
  unfold get_nested setObj
  rw [setGo_unchanged (splitSegs key) m w v h]
  exact h

theorem set_nested_write_once_amended_witness :
    get_nested (J.obj [("home", J.obj [("title", J.str "Welcome")])]) "home.title" = some (J.str "Welcome") ∧
    get_nested (J.obj (setObj [("home", J.obj [("title", J.str "Welcome")])] "home.title" (J.str "Title"))) "home.title" = some (J.str "Welcome") :=
  ⟨rfl, set_nested_write_once_amended [("home", J.obj [("title", J.str "Welcome")])] "home.title" (J.str "Title") (J.str "Welcome") rfl⟩

/-- C9: get after set round trip: on a mapping tree, when get_nested
finds nothing at a nonempty dot path, then after set_nested wrote a
value there, get_nested returns exactly that value. -/
theorem get_after_set_roundtrip (m : List (String × J)) (key : String) (v : J)
    (hk : key ≠ "") (h : get_nested (J.obj m) key = none) :
    get_nested (J.obj (setObj m key v)) key = some v :=
  setGo_write (splitSegs key) m v (splitSegs_ne_nil key) h

theorem get_after_set_roundtrip_witness :
    ("nav.menu_item" ≠ "") ∧
    get_nested (J.obj [("a", J.str "x")]) "nav.menu_item" = none ∧
    get_nested (J.obj (setObj [("a", J.str "x")] "nav.menu_item" (J.str "v"))) "nav.menu_item" = some (J.str "v") :=
  ⟨by decide, rfl,
    get_after_set_roundtrip [("a", J.str "x")] "nav.menu_item" (J.str "v") (by decide) rfl⟩

/-- C10: when get_nested finds a value at the path, every intermediate
node is already a dict holding the next segment and the last segment is
present, so set_nested leaves the entire tree unchanged: no
intermediate node is replaced and no value is written anywhere. -/
theorem set_nested_noop_on_present (m : List (String × J)) (key : String) (v w : J)
    (h : get_nested (J.obj m) key = some w) :
    set_nested (J.obj m) key v = some (J.obj m) := by
  rw [set_nested_obj]
  unfold setObj
  rw [setGo_unchanged (splitSegs key) m w v h]

theorem set_nested_noop_on_present_witness :
    get_nested (J.obj [("a", J.obj [("b", J.str "x")]), ("c", J.str "y")]) "a.b" = some (J.str "x") ∧
    set_nested (J.obj [("a", J.obj [("b", J.str "x")]), ("c", J.str "y")]) "a.b" (J.str "new") =
      some (J.obj [("a", J.obj [("b", J.str "x")]), ("c", J.str "y")]) :=
  ⟨rfl, set_nested_noop_on_present [("a", J.obj [("b", J.str "x")]), ("c", J.str "y")] "a.b" (J.str "new") (J.str "x") rfl⟩

/-- C3: for every key list and every initial source tree (a mapping,
per the data model; absent or malformed files load as the empty
mapping), process_frontend completes and every key in the list resolves
through get_nested to a non-absent value in the written source tree,
including when keys in the list are prefixes or extensions of one
another. -/
theorem frontend_keys_resolve (enFile : Option FileContent) (m : List (String × J))
    (hm : loadEn enFile = J.obj m) (keys : List String) (k : String) (hk : k ∈ keys) :
    ∃ t d, process_frontend (some keys) enFile = ⟨false, some t, some d⟩ ∧
      get_nested t k ≠ none := by
  obtain ⟨m2, d2, hrun, hres, _⟩ := processKeys_obj keys m []
  refine ⟨J.obj m2, J.obj d2, ?_, hres k hk⟩
  simp [process_frontend, hm, hrun]

theorem frontend_keys_resolve_witness :
    "home.title" ∈ ["home.title", "home"] ∧
    ∃ t d, process_frontend (some ["home.title", "home"]) (some (FileContent.parsed (J.obj []))) =
      ⟨false, some t, some d⟩ ∧ get_nested t "home.title" ≠ none :=
  ⟨by simp,
    frontend_keys_resolve (some (FileContent.parsed (J.obj []))) [] rfl
      ["home.title", "home"] "home.title" (by simp)⟩

/-- C4: running the frontend key loop twice with the same key list
returns the source tree of the first run exactly unchanged: the second
run performs no write that alters the source tree at all, so in
particular every leaf value present after the first run is preserved
(the write-once merge never overwrites). -/
theorem frontend_second_run_source_unchanged (m0 : List (String × J)) (keys : List String)
    (en1 de1 : J) (h1 : processKeys (J.obj m0) (J.obj []) keys = some (en1, de1)) :
    ∃ de2, processKeys en1 (J.obj []) keys = some (en1, de2) := by
  obtain ⟨m2, d2, hrun, hres, _⟩ := processKeys_obj keys m0 []
  have heq : some (en1, de1) = some ((J.obj m2 : J), (J.obj d2 : J)) := h1.symm.trans hrun
  injection heq with heq2
  have he : en1 = J.obj m2 := congrArg Prod.fst heq2
  subst he
  obtain ⟨d3, hstable⟩ := processKeys_stable keys m2 [] hres
  exact ⟨J.obj d3, hstable⟩

theorem frontend_second_run_source_unchanged_witness :
    processKeys (J.obj []) (J.obj []) ["nav.home"] =
      some (J.obj [("nav", J.obj [("home", J.str "Home")])],
            J.obj [("nav", J.obj [("home", J.str "[DE] Home")])]) ∧
    ∃ de2, processKeys (J.obj [("nav", J.obj [("home", J.str "Home")])]) (J.obj []) ["nav.home"] =
      some (J.obj [("nav", J.obj [("home", J.str "Home")])], de2) :=
  ⟨rfl, frontend_second_run_source_unchanged [] ["nav.home"] _ _ rfl⟩

/-- C5 counterexample: the claim that, once the key list is readable,
no error condition is fatal for every content of the source-tree file,
fails: when the source-tree file parses to the string hello, which is
valid structured data but not a mapping, processing the key a reaches
the item assignment inside set_nested on a string and raises, so
process_frontend propagates an exception. -/
theorem frontend_nonfatal_counterexample :
    (process_frontend (some ["a"]) (some (FileContent.parsed (J.str "hello")))).raised = true := rfl

/-- C5 amended: once the key-list file is readable, process_frontend
completes without raising for every key list provided the source-tree
file is absent, malformed, or parses to a mapping; when it parses to a
non-mapping value, processing a key can raise inside set_nested. -/
theorem frontend_nonfatal_amended (keys : List String) (enFile : Option FileContent)
    (hm : ∀ v, enFile = some (FileContent.parsed v) → ∃ mm, v = J.obj mm) :
    ∃ t d, process_frontend (some keys) enFile = ⟨false, some t, some d⟩ := by
  have hobj : ∃ mm, loadEn enFile = J.obj mm := by
    cases enFile with
    | none => exact ⟨[], rfl⟩
    | some fc =>
      cases fc with
      | malformed => exact ⟨[], rfl⟩
      | parsed v =>
        obtain ⟨mm, hv⟩ := hm v rfl
        exact ⟨mm, by simp [loadEn, hv]⟩
  obtain ⟨mm, hmm⟩ := hobj
  obtain ⟨m2, d2, hrun, _, _⟩ := processKeys_obj keys mm []
  exact ⟨J.obj m2, J.obj d2, by simp [process_frontend, hmm, hrun]⟩

theorem frontend_nonfatal_amended_witness :
    ∃ t d, process_frontend (some ["x.y", "x"]) (some FileContent.malformed) = ⟨false, some t, some d⟩ :=
  frontend_nonfatal_amended ["x.y", "x"] (some FileContent.malformed)
    (fun v h => by injection h with h2; exact absurd h2 (by intro h3; cases h3))

/-- C1: for every valid backend catalog, a dict holding a language
entry and a messages list whose records are dicts with a string message
entry, process_backend raises nothing and writes an output catalog
whose language equals de and in which every message record holds in its
translation entry the string made of the tag prefix followed by its
message entry, with the same number of messages in the same order. -/
theorem backend_valid_catalog_translations (m : List (String × J)) (msgs : List J)
    (hlang : (dictGet m "language").isSome)
    (hmsgs : dictGet m "messages" = some (J.arr msgs))
    (hvalid : ∀ x ∈ msgs, ∃ f s, x = J.obj f ∧ dictGet f "message" = some (J.str s)) :
    ∃ m2 msgs2,
      process_backend (some (FileContent.parsed (J.obj m))) = ⟨false, some (J.obj m2)⟩ ∧
      dictGet m2 "language" = some (J.str "de") ∧
      dictGet m2 "messages" = some (J.arr msgs2) ∧
      msgs2.length = msgs.length ∧
      ∀ (i : Nat) (hi : i < msgs.length) (hi2 : i < msgs2.length)
        (f : List (String × J)) (s : String),
        msgs.get ⟨i, hi⟩ = J.obj f → dictGet f "message" = some (J.str s) →
        ∃ f2, msgs2.get ⟨i, hi2⟩ = J.obj f2 ∧
          dictGet f2 "translation" = some (J.str ("[DE] " ++ s)) := by
  have hmsgs1 : dictGet (dictSet m "language" (J.str "de")) "messages" = some (J.arr msgs) := by
    rw [dictGet_dictSet_ne m "language" "messages" (J.str "de") (by decide)]
    exact hmsgs
  obtain ⟨msgs2, hmap, hrel⟩ := mapMsgs_sound msgs (fun x hx => by
    obtain ⟨f, s, h1, h2⟩ := hvalid x hx
    exact ⟨f, h1, by simp [h2]⟩)
  refine ⟨dictSet (dictSet m "language" (J.str "de")) "messages" (J.arr msgs2), msgs2,
    ?_, ?_, ?_, ?_, ?_⟩
  · simp [process_backend, processBackendData, hmsgs1, hmap]
  · rw [dictGet_dictSet_ne _ "messages" "language" _ (by decide), dictGet_dictSet_self]
  · rw [dictGet_dictSet_self]
  · exact hrel.length_eq.symm
  · intro i hi hi2 f s hget hmsg
    obtain ⟨f3, v, hx, hv2, hy⟩ := hrel.get hi hi2
    rw [hget] at hx
    injection hx with hf
    subst hf
    rw [hmsg] at hv2
    injection hv2 with hv3
    subst hv3
    exact ⟨dictSet f "translation" (J.str ("[DE] " ++ s)), hy,
      dictGet_dictSet_self f "translation" _⟩

theorem backend_valid_catalog_translations_witness :
    (dictGet [("language", J.str "en"),
      ("messages", J.arr [J.obj [("message", J.str "Hi"), ("translation", J.str "old")]])] "language").isSome ∧
    ∃ m2 msgs2,
      process_backend (some (FileContent.parsed (J.obj [("language", J.str "en"),
        ("messages", J.arr [J.obj [("message", J.str "Hi"), ("translation", J.str "old")]])]))) =
        ⟨false, some (J.obj m2)⟩ ∧
      dictGet m2 "language" = some (J.str "de") ∧
      dictGet m2 "messages" = some (J.arr msgs2) ∧
      msgs2.length = [J.obj [("message", J.str "Hi"), ("translation", J.str "old")]].length ∧
      ∀ (i : Nat) (hi : i < [J.obj [("message", J.str "Hi"), ("translation", J.str "old")]].length)
        (hi2 : i < msgs2.length) (f : List (String × J)) (s : String),
        [J.obj [("message", J.str "Hi"), ("translation", J.str "old")]].get ⟨i, hi⟩ = J.obj f →
        dictGet f "message" = some (J.str s) →
        ∃ f2, msgs2.get ⟨i, hi2⟩ = J.obj f2 ∧
          dictGet f2 "translation" = some (J.str ("[DE] " ++ s)) :=
  ⟨rfl, backend_valid_catalog_translations _ _ rfl rfl (by
    intro x hx
    simp only [List.mem_singleton] at hx
    subst hx
    exact ⟨[("message", J.str "Hi"), ("translation", J.str "old")], "Hi", rfl, rfl⟩)⟩

/-- C6: on a valid catalog, process_backend preserves message count and
order and mutates only each message record's translation entry and the
top-level language entry: every other entry of every message record,
and every other top-level entry of the catalog, reads unchanged in the
output. -/
theorem backend_frame (m : List (String × J)) (msgs : List J)
    (hmsgs : dictGet m "messages" = some (J.arr msgs))
    (hvalid : ∀ x ∈ msgs, ∃ f, x = J.obj f ∧ (dictGet f "message").isSome) :
    ∃ m2 msgs2,
      process_backend (some (FileContent.parsed (J.obj m))) = ⟨false, some (J.obj m2)⟩ ∧
      dictGet m2 "messages" = some (J.arr msgs2) ∧
      msgs2.length = msgs.length ∧
      (∀ k, k ≠ "language" → k ≠ "messages" → dictGet m2 k = dictGet m k) ∧
      (∀ (i : Nat) (hi : i < msgs.length) (hi2 : i < msgs2.length) (f : List (String × J)),
        msgs.get ⟨i, hi⟩ = J.obj f →
        ∃ f2, msgs2.get ⟨i, hi2⟩ = J.obj f2 ∧
          ∀ k2, k2 ≠ "translation" → dictGet f2 k2 = dictGet f k2) := by
  have hmsgs1 : dictGet (dictSet m "language" (J.str "de")) "messages" = some (J.arr msgs) := by
    rw [dictGet_dictSet_ne m "language" "messages" (J.str "de") (by decide)]
    exact hmsgs
  obtain ⟨msgs2, hmap, hrel⟩ := mapMsgs_sound msgs hvalid
  refine ⟨dictSet (dictSet m "language" (J.str "de")) "messages" (J.arr msgs2), msgs2,
    ?_, ?_, ?_, ?_, ?_⟩
  · simp [process_backend, processBackendData, hmsgs1, hmap]
  · rw [dictGet_dictSet_self]
  · exact hrel.length_eq.symm
  · intro k hk1 hk2
    rw [dictGet_dictSet_ne _ "messages" k _ hk2, dictGet_dictSet_ne _ "language" k _ hk1]
  · intro i hi hi2 f hget
    obtain ⟨f3, v, hx, hv2, hy⟩ := hrel.get hi hi2
    rw [hget] at hx
    injection hx with hf
    subst hf
    exact ⟨dictSet f "translation" (J.str ("[DE] " ++ pyStr v)), hy,
      fun k2 hk2 => dictGet_dictSet_ne f "translation" k2 _ hk2⟩

theorem backend_frame_witness :
    dictGet [("version", J.num 3),
      ("messages", J.arr [J.obj [("message", J.str "Yo"), ("id", J.num 7)]])] "messages" =
      some (J.arr [J.obj [("message", J.str "Yo"), ("id", J.num 7)]]) ∧
    ∃ m2 msgs2,
      process_backend (some (FileContent.parsed (J.obj [("version", J.num 3),
        ("messages", J.arr [J.obj [("message", J.str "Yo"), ("id", J.num 7)]])]))) =
        ⟨false, some (J.obj m2)⟩ ∧
      dictGet m2 "messages" = some (J.arr msgs2) ∧
      msgs2.length = [J.obj [("message", J.str "Yo"), ("id", J.num 7)]].length ∧
      (∀ k, k ≠ "language" → k ≠ "messages" →
        dictGet m2 k = dictGet [("version", J.num 3),
          ("messages", J.arr [J.obj [("message", J.str "Yo"), ("id", J.num 7)]])] k) ∧
      (∀ (i : Nat) (hi : i < [J.obj [("message", J.str "Yo"), ("id", J.num 7)]].length)
        (hi2 : i < msgs2.length) (f : List (String × J)),
        [J.obj [("message", J.str "Yo"), ("id", J.num 7)]].get ⟨i, hi⟩ = J.obj f →
        ∃ f2, msgs2.get ⟨i, hi2⟩ = J.obj f2 ∧
          ∀ k2, k2 ≠ "translation" → dictGet f2 k2 = dictGet f k2) :=
  ⟨rfl, backend_frame _ _ rfl (by
    intro x hx
    simp only [List.mem_singleton] at hx
    subst hx
    exact ⟨[("message", J.str "Yo"), ("id", J.num 7)], rfl, by simp [dictGet]⟩)⟩

/-- C7 counterexample: the claim that a catalog missing any of the
expected language, messages or message fields is fatal fails for the
language field: on the catalog holding only an empty messages list and
no language entry, process_backend raises nothing and writes an output,
because the code simply assigns the language entry. -/
theorem backend_missing_language_not_fatal :
    dictGet [("messages", J.arr ([] : List J))] "language" = none ∧
    process_backend (some (FileContent.parsed (J.obj [("messages", J.arr [])]))) =
      ⟨false, some (J.obj [("messages", J.arr []), ("language", J.str "de")])⟩ :=
  ⟨rfl, rfl⟩

/-- C7 amended: process_backend is fatal before any write exactly for
the other malformations: a file that fails to parse, a top level that
is not a mapping, a missing messages entry, or some message record that
is not a mapping or lacks its message entry; in each case it raises and
produces no output file. A missing language entry alone is not an
error: the language entry is simply created. -/
theorem backend_malformed_fatal_amended (fc : FileContent)
    (hbad : fc = FileContent.malformed ∨
      (∃ v, fc = FileContent.parsed v ∧ ∀ mm : List (String × J), v ≠ J.obj mm) ∨
      (∃ mm, fc = FileContent.parsed (J.obj mm) ∧ dictGet mm "messages" = none) ∨
      (∃ mm msgs x, fc = FileContent.parsed (J.obj mm) ∧
        dictGet mm "messages" = some (J.arr msgs) ∧ x ∈ msgs ∧ badMsg x = true)) :
    process_backend (some fc) = ⟨true, none⟩ := by
  rcases hbad with h | ⟨v, hfc, hne⟩ | ⟨mm, hfc, hm⟩ | ⟨mm, msgs, x, hfc, hm, hx, hbadx⟩
  · subst h; rfl
  · subst hfc
    cases v with
    | obj mm => exact absurd rfl (hne mm)
    | str s => rfl
    | arr l => rfl
    | num n => rfl
    | bool b => rfl
    | null => rfl
  · subst hfc
    have h1 : dictGet (dictSet mm "language" (J.str "de")) "messages" = none := by
      rw [dictGet_dictSet_ne mm "language" "messages" _ (by decide)]
      exact hm
    simp [process_backend, processBackendData, h1]
  · subst hfc
    have h1 : dictGet (dictSet mm "language" (J.str "de")) "messages" = some (J.arr msgs) := by
      rw [dictGet_dictSet_ne mm "language" "messages" _ (by decide)]
      exact hm
    simp [process_backend, processBackendData, h1, mapMsgs_none msgs x hx hbadx]

theorem backend_malformed_fatal_amended_witness :
    process_backend (some (FileContent.parsed (J.obj [("language", J.str "en")]))) = ⟨true, none⟩ :=
  backend_malformed_fatal_amended (FileContent.parsed (J.obj [("language", J.str "en")]))
    (Or.inr (Or.inr (Or.inl ⟨[("language", J.str "en")], rfl, rfl⟩)))
